import Mathlib

/-
Verification of the voice command interpretation engine of the
Pokemon Auto Chess probability calculator.

The development embeds, as executable Lean definitions, the functions of
src/analytics.js that the claims are about:

  convertWordsToNumbers (lines 830-846)   numeral normalizer
  parseCommand          (lines 1230-1438) chunk parser v5
  processCommand        (lines 1197-1224) confidence gate + history update
                        (lines 1932-1958) same gate shape, threshold 0.6

JavaScript specifics carried over by the embedding:
  - String.prototype.split with the whitespace-run regex returns the
    singleton list with the empty string when the receiver is empty.
  - parseInt takes the longest leading digit run after an optional sign
    (hex after a 0x marker) and yields NaN (modelled as none) otherwise.
  - JS numbers are modelled as unbounded Int; for the integer values the
    parser handles this agrees with JS up to 2^53.
  - Property lookup on an object literal falls through to
    Object.prototype: the lower-case keys "constructor" and "__proto__"
    are reachable after tokenization and are truthy, and the command
    table code path then calls an undefined feedback function, which
    throws. The embedding threads an explicit crashed flag for this.
  - Out-of-range reads give undefined; they are only compared against
    nonempty string literals, so the embedding defaults them to "".
-/

/-- JS value carried by a Command: integer, string, boolean, absent
(the clear command has no value field), or a non-serializable junk value
(a function or object reached through the JS prototype chain). -/
inductive JsVal where
  | vInt  (n : Int)
  | vStr  (s : String)
  | vBool (b : Bool)
  | vNone
  | vJunk
deriving DecidableEq, Repr

/-- One parsed command record: the type/value/feedback object literal
the parser pushes. Feedback is a JsVal because the junk rarity path
stores a non-string there. -/
structure Command where
  type     : String
  value    : JsVal
  feedback : JsVal
deriving DecidableEq, Repr

/-- ASCII word character, the character class of the regex backslash-w. -/
def wchar (c : Char) : Bool :=
  (97 ≤ c.toNat && c.toNat ≤ 122) || (65 ≤ c.toNat && c.toNat ≤ 90) ||
  (48 ≤ c.toNat && c.toNat ≤ 57) || (c.toNat = 95)

/-- Lower case ASCII letter. -/
def isLetterCh (c : Char) : Bool := 97 ≤ c.toNat && c.toNat ≤ 122

/-- ASCII decimal digit. -/
def isDigitCh (c : Char) : Bool := 48 ≤ c.toNat && c.toNat ≤ 57

def isHexCh (c : Char) : Bool :=
  isDigitCh c || (97 ≤ c.toNat && c.toNat ≤ 102) || (65 ≤ c.toNat && c.toNat ≤ 70)

def hexVal (c : Char) : Nat :=
  if isDigitCh c then c.toNat - 48
  else if 97 ≤ c.toNat && c.toNat ≤ 102 then c.toNat - 97 + 10
  else c.toNat - 65 + 10

def natOfDigits (base : Nat) (dv : Char → Nat) (l : List Char) : Nat :=
  l.foldl (fun a c => a * base + dv c) 0

/-- Shallow embedding of the JS parseInt call with the radix argument
omitted: skip leading whitespace, optional sign, hexadecimal when the
digits start with 0x or 0X, otherwise the longest leading run of decimal
digits; none models NaN. -/
def jsParseInt (s : String) : Option Int :=
  let l := s.data.dropWhile Char.isWhitespace
  let sgn : Int := match l with | '-' :: _ => -1 | _ => 1
  let rest : List Char := match l with | '-' :: r => r | '+' :: r => r | _ => l
  match rest with
  | '0' :: 'x' :: r =>
      let ds := r.takeWhile isHexCh
      if ds.isEmpty then none else some (sgn * (natOfDigits 16 hexVal ds : Nat))
  | '0' :: 'X' :: r =>
      let ds := r.takeWhile isHexCh
      if ds.isEmpty then none else some (sgn * (natOfDigits 16 hexVal ds : Nat))
  | _ =>
      let ds := rest.takeWhile isDigitCh
      if ds.isEmpty then none else some (sgn * (natOfDigits 10 (fun c => c.toNat - 48) ds : Nat))

/-- Embedding of text.toLowerCase(): ASCII lowering, character by
character. -/
def jsLowerStr (s : String) : String := String.mk (s.data.map Char.toLower)

/-- Embedding of text.trim(): drop leading and trailing whitespace. -/
def trimChars (l : List Char) : List Char :=
  ((l.dropWhile Char.isWhitespace).reverse.dropWhile Char.isWhitespace).reverse

/-- Embedding of text.trim() on strings. -/
def jsTrim (s : String) : String := String.mk (trimChars s.data)

/-- Split a character list at whitespace characters, keeping empty
segments (cur accumulates the current segment reversed). -/
def splitSegs : List Char → List Char → List (List Char)
  | [], cur => [cur.reverse]
  | c :: rest, cur =>
      if c.isWhitespace then cur.reverse :: splitSegs rest []
      else splitSegs rest (c :: cur)

/-- Embedding of original.split on the whitespace-run regex, for the
trimmed string built at the call site: JS returns the singleton list
holding the empty string when the receiver is empty, and the whitespace
separated words otherwise. -/
def jsSplitWs (s : String) : List String :=
  if s.data = [] then [""]
  else ((splitSegs s.data []).filter (fun w => w ≠ [])).map String.mk

/-- The tokenizer of parseCommand (lines 1232-1233): lower case, trim,
split on whitespace runs. -/
def jsTokens (text : String) : List String := jsSplitWs (jsTrim (jsLowerStr text))

/-- One parsed command together with the token indices the emitting pass
marked consumed for it (the consumed[..] = true assignments at its push
site). The text based level up/down pass and the orphan number fallback
assign nothing and record the empty list. -/
structure PCmd where
  cmd     : Command
  srcToks : List Nat
deriving DecidableEq, Repr

/-- Parser state: the consumed flags (one per token), the commands pushed
so far, and whether the JS code would already have thrown. -/
structure PState where
  consumed : List Bool
  cmds     : List PCmd
  crashed  : Bool
deriving DecidableEq, Repr

/-- tokens[i], with out-of-range undefined modelled as the empty string
(it is only ever compared against nonempty literals). -/
def tokAt (toks : List String) (i : Nat) : String := toks.getD i ""

/-- consumed[i]. -/
def cget (st : PState) (i : Nat) : Bool := st.consumed.getD i false

def markAll (ts : List Nat) (c : List Bool) : List Bool :=
  ts.foldl (fun a t => a.set t true) c

/-- commands.push(c) followed by the consumed[..] = true assignments of
the push site, with the assigned indices recorded on the command. -/
def pushCmd (c : Command) (ts : List Nat) (st : PState) : PState :=
  { consumed := markAll ts st.consumed, cmds := st.cmds ++ [⟨c, ts⟩], crashed := st.crashed }

/-- One entry of the toggles table (lines 1241-1252). -/
structure ToggleSpec where
  keyword  : String
  onWords  : List String
  offWords : List String
  type     : String
deriving Repr

def dittoSpec : ToggleSpec :=
  ⟨"ditto", ["on", "enable", "enabled", "add", "include", "use", "with", "yes"],
            ["off", "disable", "disabled", "remove", "exclude", "no", "without"], "ditto"⟩

def pveSpec : ToggleSpec :=
  ⟨"pve", ["on", "enable", "enabled", "add", "include", "use", "round", "yes"],
          ["off", "disable", "disabled", "remove", "exclude", "no"], "pve"⟩

def toggleCmd (e : ToggleSpec) (onv : Bool) : Command :=
  ⟨e.type, .vBool onv, .vStr (e.keyword ++ (if onv then " on" else " off"))⟩

/-- Neighbour inspection of the toggle pass (lines 1260-1285): the token
before the keyword is checked first, then the token after; on-words win
over off-words on the same side; the keyword token and the matched
neighbour are consumed. none models falling through without a command. -/
def tryToggleFire (e : ToggleSpec) (toks : List String) (st : PState) (i : Nat) :
    Option PState :=
  if 0 < i ∧ cget st (i-1) = false ∧ tokAt toks (i-1) ∈ e.onWords then
    some (pushCmd (toggleCmd e true) [i, i-1] st)
  else if 0 < i ∧ cget st (i-1) = false ∧ tokAt toks (i-1) ∈ e.offWords then
    some (pushCmd (toggleCmd e false) [i, i-1] st)
  else if i+1 < toks.length ∧ cget st (i+1) = false ∧ tokAt toks (i+1) ∈ e.onWords then
    some (pushCmd (toggleCmd e true) [i, i+1] st)
  else if i+1 < toks.length ∧ cget st (i+1) = false ∧ tokAt toks (i+1) ∈ e.offWords then
    some (pushCmd (toggleCmd e false) [i, i+1] st)
  else none

/-- Body of the toggle loop (lines 1254-1288) for one index: the two
table entries are tried in insertion order; a fire breaks out of the
entry loop. -/
def toggleStep (toks : List String) (st : PState) (i : Nat) : PState :=
  if cget st i then st
  else
    match (if tokAt toks i = dittoSpec.keyword then tryToggleFire dittoSpec toks st i else none) with
    | some st2 => st2
    | none =>
      match (if tokAt toks i = pveSpec.keyword then tryToggleFire pveSpec toks st i else none) with
      | some st2 => st2
      | none => st

def togglePass (toks : List String) (st : PState) : PState :=
  if st.crashed then st else (List.range toks.length).foldl (toggleStep toks) st

def wildCmd : Command := ⟨"wild", .vBool true, .vStr "Wild target"⟩

/-- Bare "wild" branch of the wild target loop (lines 1295-1301): push
one command, consume the wild token, and also consume an adjacent
unconsumed "target" token on either side. -/
def wildTryBare (toks : List String) (st : PState) (i : Nat) : PState :=
  if tokAt toks i = "wild" then
    pushCmd wildCmd
      ([i]
        ++ (if 0 < i ∧ tokAt toks (i-1) = "target" ∧ cget st (i-1) = false then [i-1] else [])
        ++ (if i+1 < toks.length ∧ tokAt toks (i+1) = "target" ∧ cget st (i+1) = false then [i+1] else []))
      st
  else st

/-- The "target is wild" phrase branch (lines 1303-1306): the condition
inspects only the tokens, and the consumed assignments for the second
and third phrase token are unconditional. -/
def wildTryPhrase (toks : List String) (st : PState) (i : Nat) : PState :=
  if tokAt toks i = "target" ∧ tokAt toks (i+1) = "is" ∧ tokAt toks (i+2) = "wild" then
    pushCmd wildCmd [i, i+1, i+2] st
  else st

/-- Body of the wild target loop (lines 1291-1307) for one index: both
branches run in the same iteration, guarded by one consumed check. -/
def wildStep (toks : List String) (st : PState) (i : Nat) : PState :=
  if cget st i then st
  else wildTryPhrase toks (wildTryBare toks st i) i

def wildPass (toks : List String) (st : PState) : PState :=
  if st.crashed then st else (List.range toks.length).foldl (wildStep toks) st

/-- One entry of the numberCommands table (lines 1310-1332). -/
structure NumSpec where
  type     : String
  fb       : Int → String
  validate : Option (Int → Bool)

/-- The numberCommands table. Only the three level keywords carry a
validation predicate. -/
def numberCommands : String → Option NumSpec
  | "level" | "lvl" | "lv" =>
      some ⟨"level", fun n => s!"Level {n}", some (fun n => decide (1 ≤ n ∧ n ≤ 9))⟩
  | "scout" | "scouted" | "scouting" | "seen" | "taken" | "opponent" =>
      some ⟨"scouting", fun n => s!"Scout {n}", none⟩
  | "bench" | "benched" =>
      some ⟨"bench", fun n => s!"Bench {n}", none⟩
  | "copy" | "copies" | "have" | "own" | "got" | "holding" =>
      some ⟨"copies", fun n => s!"Own {n}", none⟩
  | "refresh" | "refreshes" | "roll" | "rolls" =>
      some ⟨"refreshes", fun n => s!"{n} refreshes", none⟩
  | _ => none

/-- The check !cmd.validate || cmd.validate(num) at line 1369. -/
def passesValidation (spec : NumSpec) (n : Int) : Bool :=
  match spec.validate with
  | some v => v n
  | none => true

/-- Lower-case own property names of Object.prototype: looking these up
on an object literal returns an inherited, truthy, non-table value. -/
def protoProps : List String := ["constructor", "__proto__"]

/-- One number candidate of the search loops: index in range, not
consumed, and parseInt succeeds. -/
def numCandidate (toks : List String) (st : PState) (j : Nat) : Option (Int × Nat) :=
  if j < toks.length ∧ cget st j = false then
    match jsParseInt (tokAt toks j) with
    | some n => some (n, j)
    | none => none
  else none

/-- Number search of the keyword+number pass (lines 1343-1365): forward
j = i+1 then i+2 (both below min(i+3, length)), and only when the
forward search failed and i > 0, backward j = i-1 then i-2 (the latter
only when i is at least 2, matching the max(0, i-2) bound). Consumed
tokens and tokens that do not parse as integers are skipped. -/
def findNum (toks : List String) (st : PState) (i : Nat) : Option (Int × Nat) :=
  match numCandidate toks st (i+1) with
  | some r => some r
  | none =>
    match numCandidate toks st (i+2) with
    | some r => some r
    | none =>
      if 0 < i then
        match numCandidate toks st (i-1) with
        | some r => some r
        | none => if 2 ≤ i then numCandidate toks st (i-2) else none
      else none

/-- Body of the keyword+number loop (lines 1334-1376) for one index.
When the token is no own key of the table but an inherited
Object.prototype name, the JS guard still passes, cmd.validate is
undefined (so the validation check passes), and building the feedback
calls undefined: the state is marked crashed when a number is found. -/
def numStep (toks : List String) (st : PState) (i : Nat) : PState :=
  if st.crashed then st
  else if cget st i then st
  else
    match numberCommands (tokAt toks i) with
    | some spec =>
        match findNum toks st i with
        | some (n, j) =>
            if passesValidation spec n then
              pushCmd ⟨spec.type, .vInt n, .vStr (spec.fb n)⟩ [i, j] st
            else st
        | none => st
    | none =>
        if tokAt toks i ∈ protoProps then
          match findNum toks st i with
          | some _ => { st with crashed := true }
          | none => st
        else st

def numPass (toks : List String) (st : PState) : PState :=
  (List.range toks.length).foldl (numStep toks) st

/-- The rarities table (lines 1379-1385), own properties only. -/
def raritiesOwn : String → Option String
  | "common" => some "common"
  | "uncommon" | "uc" | "green" => some "uncommon"
  | "rare" | "blue" => some "rare"
  | "epic" | "purple" => some "epic"
  | "ultra" | "legendary" | "red" => some "ultra"
  | _ => none

/-- Truthiness of rarities[tokens[i]], prototype chain included. -/
def rarityHit (toks : List String) (st : PState) (i : Nat) : Bool :=
  !cget st i && ((raritiesOwn (tokAt toks i)).isSome || protoProps.contains (tokAt toks i))

/-- Rarity pass (lines 1387-1394): the first unconsumed token with a
truthy lookup wins, is consumed, and the loop breaks. An inherited
Object.prototype value is pushed as a junk command (no call happens, so
no crash on this path). -/
def rarityPass (toks : List String) (st : PState) : PState :=
  if st.crashed then st
  else
    match (List.range toks.length).find? (rarityHit toks st) with
    | some i =>
        match raritiesOwn (tokAt toks i) with
        | some v => pushCmd ⟨"rarity", .vStr v, .vStr v⟩ [i] st
        | none => pushCmd ⟨"rarity", .vJunk, .vJunk⟩ [i] st
    | none => st

/-- Body of the evolution loop (lines 1397-1405) for one index i below
length - 1. -/
def evoStep (toks : List String) (st : PState) (i : Nat) : PState :=
  if cget st i || cget st (i+1) then st
  else
    match jsParseInt (tokAt toks i) with
    | some n =>
        if (n = 2 ∨ n = 3) ∧ (tokAt toks (i+1) = "star" ∨ tokAt toks (i+1) = "stars") then
          pushCmd ⟨"evolution", .vStr (if n = 2 then "twoStar" else "threeStar"),
                   .vStr (s!"{n}★")⟩ [i, i+1] st
        else st
    | none => st

def evoPass (toks : List String) (st : PState) : PState :=
  if st.crashed then st else (List.range (toks.length - 1)).foldl (evoStep toks) st

/-- Bool prefix test on character lists. -/
def leadsWith : List Char → List Char → Bool
  | [], _ => true
  | _ :: _, [] => false
  | a :: as, b :: bs => a = b && leadsWith as bs

def isWsChar (c : Char) : Bool := c.isWhitespace

/-- Does kw, then a run of whitespace, then arg start at the head of l:
the anchored test of the regex built from kw, a whitespace star and arg.
Dropping the whole whitespace run is exact because the first character
of arg is not whitespace, so regex backtracking over the star never
helps. -/
def phraseAt (kw arg : List Char) (l : List Char) : Bool :=
  leadsWith kw l && leadsWith arg ((l.drop kw.length).dropWhile isWsChar)

/-- Does the kw-whitespace-arg phrase occur anywhere in the list. -/
def hasPhrase (kw arg : List Char) : List Char → Bool
  | [] => phraseAt kw arg []
  | c :: rest => phraseAt kw arg (c :: rest) || hasPhrase kw arg rest

/-- The test of the level-up regex (line 1408) on the lowered text. -/
def levelUpMatch (s : String) : Bool := hasPhrase "level".data "up".data s.data

/-- The test of the level-down regex (line 1411) on the lowered text. -/
def levelDownMatch (s : String) : Bool := hasPhrase "level".data "down".data s.data

/-- Level up/down pass (lines 1407-1413): two independent regex tests on
the pre-tokenization text; the pushed commands consume no tokens. -/
def textPass (original : String) (st : PState) : PState :=
  if st.crashed then st
  else
    let st1 :=
      if levelUpMatch original then
        pushCmd ⟨"level", .vStr "up", .vStr "Level up"⟩ [] st
      else st
    if levelDownMatch original then
      pushCmd ⟨"level", .vStr "down", .vStr "Level down"⟩ [] st1
    else st1

/-- Clear/reset pass (lines 1416-1423): first unconsumed clear or reset
token wins and the loop breaks. -/
def clearPass (toks : List String) (st : PState) : PState :=
  if st.crashed then st
  else
    match (List.range toks.length).find?
        (fun i => !cget st i && ((tokAt toks i == "clear") || (tokAt toks i == "reset"))) with
    | some i => pushCmd ⟨"clear", .vNone, .vStr "Cleared"⟩ [i] st
    | none => st

/-- The first token parsing as an integer in 1..9, scanning left to
right (lines 1427-1433); the consumed flags are not inspected and not
updated by this fallback. -/
def orphanNum (toks : List String) : Option Int :=
  (List.range toks.length).findSome? (fun i =>
    match jsParseInt (tokAt toks i) with
    | some n => if 1 ≤ n ∧ n ≤ 9 then some n else none
    | none => none)

/-- Orphan number fallback (lines 1425-1434): runs only when no command
was produced by the earlier passes. -/
def orphanPass (toks : List String) (st : PState) : PState :=
  if st.crashed then st
  else if st.cmds = [] then
    match orphanNum toks with
    | some n => pushCmd ⟨"level", .vInt n, .vStr (s!"Level {n}")⟩ [] st
    | none => st
  else st

def initState (toks : List String) : PState :=
  ⟨List.replicate toks.length false, [], false⟩

/-- The pass pipeline of parseCommand in source order. -/
def runPasses (original : String) (toks : List String) : PState :=
  orphanPass toks (clearPass toks (textPass original (evoPass toks
    (rarityPass toks (numPass toks (wildPass toks (togglePass toks (initState toks))))))))

/-- parseCommand (lines 1230-1438) as a state transformer: lower case and
trim the text, tokenize, run the passes. -/
def parseFull (text : String) : PState :=
  let original := jsTrim (jsLowerStr text)
  runPasses original (jsSplitWs original)

/-- The instrumented command list of one parse. -/
def parseCommandI (text : String) : List PCmd := (parseFull text).cmds

/-- The command list parseCommand returns (when it does not throw). -/
def parseCommand (text : String) : List Command := (parseCommandI text).map PCmd.cmd

/-- Does the JS parseCommand throw on this input (the inherited
Object.prototype lookup followed by calling an undefined feedback
function). -/
def parseThrows (text : String) : Bool := (parseFull text).crashed

/-- The wordToNum table (lines 830-837) in its JS insertion order. -/
def wordToNum : List (String × String) :=
  [("zero", "0"), ("one", "1"), ("two", "2"), ("three", "3"), ("four", "4"),
   ("five", "5"), ("six", "6"), ("seven", "7"), ("eight", "8"), ("nine", "9"),
   ("ten", "10"), ("eleven", "11"), ("twelve", "12"), ("thirteen", "13"),
   ("fourteen", "14"), ("fifteen", "15"), ("sixteen", "16"), ("seventeen", "17"),
   ("eighteen", "18"), ("nineteen", "19"), ("twenty", "20"),
   ("to", "2"), ("too", "2")]

/-- The same pairs in the order produced at line 841: a stable sort of
the keys by strictly decreasing length, ties keeping insertion order. -/
def sortedWords : List (String × String) :=
  [("seventeen", "17"),
   ("thirteen", "13"), ("fourteen", "14"), ("eighteen", "18"), ("nineteen", "19"),
   ("fifteen", "15"), ("sixteen", "16"),
   ("eleven", "11"), ("twelve", "12"), ("twenty", "20"),
   ("three", "3"), ("seven", "7"), ("eight", "8"),
   ("zero", "0"), ("four", "4"), ("five", "5"), ("nine", "9"),
   ("one", "1"), ("two", "2"), ("six", "6"), ("ten", "10"), ("too", "2"),
   ("to", "2")]

/-- The word boundary after w inside l: the character following the
first length-of-w characters, if any, is no word character. -/
def boundaryB (w l : List Char) : Bool :=
  match l.drop w.length with
  | [] => true
  | c :: _ => !wchar c

/-- Anchored test of the word-boundary regex of one table word: the
character before the position is no word character (prev records it),
the word is a prefix, and the following character, if any, is no word
character. -/
def fireAt (w : List Char) (prev : Bool) (l : List Char) : Bool :=
  !prev && leadsWith w l && boundaryB w l

/-- The prev flag after the scan steps over w. -/
def lastWchar (w : List Char) (prev : Bool) : Bool :=
  match w.getLast? with
  | some c => wchar c
  | none => prev

/-- One result.replace call of line 843: replace every non-overlapping
boundary-delimited occurrence of w by d, scanning left to right. prev
records whether the previous character of the original string is a word
character (false at the start). -/
def replaceAux (w d : List Char) : List Char → Bool → List Char
  | [], _ => []
  | c :: rest, prev =>
      if fireAt w prev (c :: rest) then
        d ++ replaceAux w d (rest.drop (w.length - 1)) (lastWchar w prev)
      else
        c :: replaceAux w d rest (wchar c)
termination_by l _ => l.length
decreasing_by
  all_goals simp [List.length_drop]
  omega

/-- Is there any boundary-delimited occurrence of w in the list, given
the word-character flag of the character before the list. -/
def hasMatchAux (w : List Char) : List Char → Bool → Bool
  | [], _ => false
  | c :: rest, prev => fireAt w prev (c :: rest) || hasMatchAux w rest (wchar c)

/-- convertWordsToNumbers (lines 839-846) on character lists: lower the
text, then fold the length-sorted replace calls. -/
def convertChars (l : List Char) : List Char :=
  sortedWords.foldl (fun acc wd => replaceAux wd.1.data wd.2.data acc false)
    (l.map Char.toLower)

/-- convertWordsToNumbers (lines 839-846). -/
def convertWordsToNumbers (s : String) : String := String.mk (convertChars s.data)

/-- One entry of the commandHistory array: the object literal of line
1217. -/
structure HistoryEntry where
  text     : String
  commands : List Command
  time     : Nat
deriving DecidableEq, Repr

/-- History update of processCommand (lines 1217-1218): unshift the new
entry to the front and pop the last entry when the length exceeds 10. -/
def histPush (e : HistoryEntry) (h : List HistoryEntry) : List HistoryEntry :=
  let h2 := e :: h
  if 10 < h2.length then h2.dropLast else h2

/-- The three outcomes of processCommand: the low-confidence rejection,
the parsed-to-zero-commands rejection, and execution of the parsed
commands. -/
inductive Outcome where
  | lowConfidence
  | unknown
  | executed
deriving DecidableEq, Repr

/-- Result of one processCommand call: its outcome, the commands handed
to executeCommand, and the command history afterwards. -/
structure ProcResult where
  outcome  : Outcome
  executed : List Command
  history  : List HistoryEntry
deriving DecidableEq, Repr

/-- Common shape of the processCommand variants (lines 1197-1224 with
threshold 0.35, lines 1932-1958 with threshold 0.6): reject strictly
below the threshold before calling the parser, reject a parse with zero
commands, otherwise execute every command and push one history entry.
The threshold and the parser are the two points where the source
variants differ, so they are parameters here; confidence is modelled as
an exact rational. -/
def processCommandGate (threshold : ℚ) (parse : String → List Command)
    (text : String) (confidence : ℚ) (hist : List HistoryEntry) (now : Nat) : ProcResult :=
  if confidence < threshold then ⟨.lowConfidence, [], hist⟩
  else
    let cmds := parse text
    if cmds = [] then ⟨.unknown, [], hist⟩
    else ⟨.executed, cmds, histPush ⟨text, cmds, now⟩ hist⟩

/-- The v5 processCommand (lines 1197-1224): threshold 0.35, and the
text is passed through convertWordsToNumbers before parsing. -/
def processCommandV5 (text : String) (confidence : ℚ)
    (hist : List HistoryEntry) (now : Nat) : ProcResult :=
  processCommandGate 0.35 (fun t => parseCommand (convertWordsToNumbers t))
    text confidence hist now

/-- Are the recorded source token indices of a disjoint from those of b. -/
def DisjTo (a b : PCmd) : Prop := ∀ t ∈ a.srcToks, t ∉ b.srcToks

/-- Parse invariant: the consumed array keeps the token count, the
recorded source tokens of the emitted commands are pairwise disjoint,
and every recorded source token is marked consumed. -/
def ParseInv (n : Nat) (st : PState) : Prop :=
  st.consumed.length = n ∧ st.cmds.Pairwise DisjTo ∧
    ∀ c ∈ st.cmds, ∀ t ∈ c.srcToks, st.consumed.getD t false = true

/-- Every token value the toggle pass can mark consumed. -/
def ToggleVocab (s : String) : Prop :=
  s ∈ (["ditto", "pve", "on", "enable", "enabled", "add", "include", "use",
        "with", "yes", "round", "off", "disable", "disabled", "remove",
        "exclude", "no", "without"] : List String)

/-- What a consumed slot can hold while the wild pass is at loop index
bound: toggle vocabulary, a target token, a wild token at an index the
loop already visited or consumed as the tail of a target-is-wild
phrase, or an is token consumed as the middle of such a phrase. -/
def WOK (toks : List String) (st : PState) (bound j : Nat) : Prop :=
  ToggleVocab (tokAt toks j) ∨ tokAt toks j = "target" ∨
    (tokAt toks j = "wild" ∧
      (j < bound ∨ (2 ≤ j ∧ cget st (j-1) = true ∧ tokAt toks (j-1) = "is"))) ∨
    (tokAt toks j = "is" ∧ 1 ≤ j ∧ cget st (j-1) = true ∧ tokAt toks (j-1) = "target")

/-- Invariant after the toggle pass. -/
def TogInv (toks : List String) (st : PState) : Prop :=
  ParseInv toks.length st ∧ ∀ j, cget st j = true → ToggleVocab (tokAt toks j)

/-- Invariant inside the wild pass. -/
def WildInv (toks : List String) (bound : Nat) (st : PState) : Prop :=
  ParseInv toks.length st ∧ ∀ j, cget st j = true → WOK toks st bound j

/-- Token indices of the first adjacent token pair carrying the level
up or level down phrase. -/
def lvlPhraseToks (arg : String) (toks : List String) : List Nat :=
  match (List.range toks.length).find?
      (fun j => (tokAt toks j == "level") && (tokAt toks (j+1) == arg)) with
  | some j => [j, j+1]
  | none => []

/-- Constituent token indices of an emitted command: the indices its
pass marked consumed, except for the text based level up/down commands
(the only commands with type level and a string value), whose
constituents are the adjacent token pair carrying the matched phrase. -/
def constituentToks (toks : List String) (c : PCmd) : List Nat :=
  if c.cmd.type = "level" ∧ c.cmd.value = .vStr "up" then lvlPhraseToks "up" toks
  else if c.cmd.type = "level" ∧ c.cmd.value = .vStr "down" then lvlPhraseToks "down" toks
  else c.srcToks

/-- Claim C1 as stated for one input: within the parse of this text no
token index contributes to more than one emitted command. -/
def claimC1Holds (text : String) : Prop :=
  (parseCommandI text).Pairwise
    (fun a b => ∀ t ∈ constituentToks (jsTokens text) a, t ∉ constituentToks (jsTokens text) b)

/-
Theorems. Helper lemmas come first; the claim theorems carry the claim
identifiers in their doc comments.
-/

theorem histPush_take (e : HistoryEntry) (h : List HistoryEntry) (hle : h.length ≤ 10) :
    histPush e h = (e :: h).take 10 := by
  unfold histPush
  by_cases h10 : 10 < (e :: h).length
  · rw [if_pos h10, List.dropLast_eq_take]
    simp only [List.length_cons]
    congr 1
    simp only [List.length_cons] at h10
    omega
  · rw [if_neg h10, eq_comm]
    simp only [List.length_cons, not_lt] at h10
    exact List.take_of_length_le h10

theorem histFold (es : List HistoryEntry) :
    es.foldl (fun h e => histPush e h) [] = es.reverse.take 10 := by
  induction es using List.reverseRecOn with
  | nil => rfl
  | append_singleton es e IH =>
      rw [List.foldl_append]
      simp only [List.foldl]
      rw [IH, histPush_take e _ (by rw [List.length_take]; omega), List.reverse_append]
      simp [List.take_take]

theorem gate_success_hist (θ : ℚ) (parse : String → List Command) (text : String)
    (conf : ℚ) (hist : List HistoryEntry) (now : Nat)
    (h1 : ¬ conf < θ) (h2 : parse text ≠ []) :
    (processCommandGate θ parse text conf hist now).history
      = histPush ⟨text, parse text, now⟩ hist := by
  unfold processCommandGate
  rw [if_neg h1]
  simp only [if_neg h2]

/-- C6: the command history is a push-to-front buffer of fixed capacity
10 dropping the oldest entry on overflow: folding any entry sequence
into the empty history keeps the 10 most recent entries newest first;
after 11 sequential pushes exactly the first entry is evicted; and every
successful processCommand call updates the history with exactly one such
push. -/
theorem history_ring_buffer :
    (∀ es : List HistoryEntry, es.foldl (fun h e => histPush e h) [] = es.reverse.take 10)
    ∧ (∀ e1 e2 e3 e4 e5 e6 e7 e8 e9 e10 e11 : HistoryEntry,
        [e1, e2, e3, e4, e5, e6, e7, e8, e9, e10, e11].foldl (fun h e => histPush e h) []
          = [e11, e10, e9, e8, e7, e6, e5, e4, e3, e2])
    ∧ (∀ (θ : ℚ) (parse : String → List Command) (text : String) (conf : ℚ)
        (hist : List HistoryEntry) (now : Nat), ¬ conf < θ → parse text ≠ [] →
        (processCommandGate θ parse text conf hist now).history
          = histPush ⟨text, parse text, now⟩ hist) := by
  refine ⟨histFold, ?_, gate_success_hist⟩
  intro e1 e2 e3 e4 e5 e6 e7 e8 e9 e10 e11
  rw [histFold]
  rfl

/-- Witness for C6: the third conjunct applied at a concrete successful
call. -/
theorem history_ring_buffer_witness :
    (processCommandGate 0 (fun _ => [⟨"clear", .vNone, .vStr "Cleared"⟩]) "x" 1 [] 5).history
      = histPush ⟨"x", [⟨"clear", .vNone, .vStr "Cleared"⟩], 5⟩ [] :=
  history_ring_buffer.2.2 0 (fun _ => [⟨"clear", .vNone, .vStr "Cleared"⟩]) "x" 1 [] 5
    (not_lt.mpr zero_le_one) (List.cons_ne_nil _ _)

/-- C2: the confidence gate produces the low-confidence outcome, with no
command executed and the parser not consulted, exactly when the
confidence is strictly below the configured threshold; the outcome is
distinct from the zero-command outcome; at the thresholds 0.6 and 0.35
a confidence equal to the threshold is accepted and one a hundredth
below is rejected. -/
theorem confidence_gate_boundary :
    (∀ (θ : ℚ) (parse : String → List Command) (text : String) (conf : ℚ)
        (hist : List HistoryEntry) (now : Nat),
        ((processCommandGate θ parse text conf hist now).outcome = .lowConfidence ↔ conf < θ)
        ∧ (conf < θ → processCommandGate θ parse text conf hist now = ⟨.lowConfidence, [], hist⟩))
    ∧ Outcome.lowConfidence ≠ Outcome.unknown
    ∧ (∀ (parse1 parse2 : String → List Command) (θ conf : ℚ) (text : String)
        (hist : List HistoryEntry) (now : Nat), conf < θ →
        processCommandGate θ parse1 text conf hist now
          = processCommandGate θ parse2 text conf hist now)
    ∧ (∀ (parse : String → List Command) (text : String) (hist : List HistoryEntry) (now : Nat),
        (processCommandGate 0.6 parse text 0.6 hist now).outcome ≠ .lowConfidence
        ∧ (processCommandGate 0.6 parse text 0.59 hist now).outcome = .lowConfidence
        ∧ (processCommandGate 0.35 parse text 0.35 hist now).outcome ≠ .lowConfidence
        ∧ (processCommandGate 0.35 parse text 0.34 hist now).outcome = .lowConfidence) := by
  have key : ∀ (θ : ℚ) (parse : String → List Command) (text : String) (conf : ℚ)
      (hist : List HistoryEntry) (now : Nat),
      ((processCommandGate θ parse text conf hist now).outcome = .lowConfidence ↔ conf < θ)
      ∧ (conf < θ → processCommandGate θ parse text conf hist now = ⟨.lowConfidence, [], hist⟩) := by
    intro θ parse text conf hist now
    unfold processCommandGate
    by_cases hc : conf < θ
    · rw [if_pos hc]
      exact ⟨⟨fun _ => hc, fun _ => rfl⟩, fun _ => rfl⟩
    · rw [if_neg hc]
      refine ⟨⟨fun h => ?_, fun h => absurd h hc⟩, fun h => absurd h hc⟩
      by_cases hz : parse text = [] <;> simp [hz] at h
  refine ⟨key, fun h => Outcome.noConfusion h, ?_, ?_⟩
  · intro p1 p2 θ conf text hist now hc
    rw [(key θ p1 text conf hist now).2 hc, (key θ p2 text conf hist now).2 hc]
  · intro parse text hist now
    refine ⟨?_, ?_, ?_, ?_⟩
    · intro h
      exact absurd ((key _ parse text _ hist now).1.mp h) (by norm_num)
    · exact ((key _ parse text _ hist now).1.mpr (by norm_num))
    · intro h
      exact absurd ((key _ parse text _ hist now).1.mp h) (by norm_num)
    · exact ((key _ parse text _ hist now).1.mpr (by norm_num))

/-- Witness for C2: a confidence strictly below the threshold is
rejected with the low-confidence result at a concrete call. -/
theorem confidence_gate_boundary_witness :
    processCommandGate 1 (fun t => parseCommand (convertWordsToNumbers t))
        "level 7" 0 [] 0 = ⟨.lowConfidence, [], []⟩ :=
  (confidence_gate_boundary.1 1 (fun t => parseCommand (convertWordsToNumbers t))
    "level 7" 0 [] 0).2 zero_lt_one

/-- C3: a number failing the attached validation makes the
keyword+number match discard entirely: parsing level 12 emits nothing
and consumes no token, while parsing level 7 emits the level command
with value 7. -/
theorem level_validation_discard :
    parseCommand "level 12" = []
    ∧ (parseFull "level 12").consumed = [false, false]
    ∧ parseCommand "level 7" = [⟨"level", .vInt 7, .vStr "Level 7"⟩] :=
  ⟨rfl, rfl, rfl⟩

/-- C4: the orphan number fallback emits the first integer in 1..9 as a
level command when nothing else matched, and is skipped as soon as any
earlier pass produced a command. -/
theorem orphan_fallback :
    parseCommand "4" = [⟨"level", .vInt 4, .vStr "Level 4"⟩]
    ∧ parseCommand "scouted 4" = [⟨"scouting", .vInt 4, .vStr "Scout 4"⟩]
    ∧ (∀ (toks : List String) (st : PState), st.cmds ≠ [] → orphanPass toks st = st) := by
  refine ⟨rfl, rfl, ?_⟩
  intro toks st h
  unfold orphanPass
  by_cases hcr : st.crashed = true
  · rw [if_pos hcr]
  · rw [if_neg hcr, if_neg h]

/-- Witness for C4: the fallback leaves a state with a command alone. -/
theorem orphan_fallback_witness :
    orphanPass ["scouted", "4"]
        ⟨[true, true], [⟨⟨"scouting", .vInt 4, .vStr "Scout 4"⟩, [0, 1]⟩], false⟩
      = ⟨[true, true], [⟨⟨"scouting", .vInt 4, .vStr "Scout 4"⟩, [0, 1]⟩], false⟩ :=
  orphan_fallback.2.2 ["scouted", "4"]
    ⟨[true, true], [⟨⟨"scouting", .vInt 4, .vStr "Scout 4"⟩, [0, 1]⟩], false⟩ (by decide)

/-- C5: the two utterances with reordered words parse to the same
multiset of commands (one pve-on toggle, scouting 4, copies 2), though
in different list orders. -/
theorem order_independence :
    parseCommand "pve on scouting 4 copy 2"
      = [⟨"pve", .vBool true, .vStr "pve on"⟩, ⟨"scouting", .vInt 4, .vStr "Scout 4"⟩,
         ⟨"copies", .vInt 2, .vStr "Own 2"⟩]
    ∧ parseCommand "copy 2 scouting 4 pve on"
      = [⟨"pve", .vBool true, .vStr "pve on"⟩, ⟨"copies", .vInt 2, .vStr "Own 2"⟩,
         ⟨"scouting", .vInt 4, .vStr "Scout 4"⟩]
    ∧ (parseCommand "pve on scouting 4 copy 2").Perm (parseCommand "copy 2 scouting 4 pve on") := by
  have h1 : parseCommand "pve on scouting 4 copy 2"
      = [⟨"pve", .vBool true, .vStr "pve on"⟩, ⟨"scouting", .vInt 4, .vStr "Scout 4"⟩,
         ⟨"copies", .vInt 2, .vStr "Own 2"⟩] := rfl
  have h2 : parseCommand "copy 2 scouting 4 pve on"
      = [⟨"pve", .vBool true, .vStr "pve on"⟩, ⟨"copies", .vInt 2, .vStr "Own 2"⟩,
         ⟨"scouting", .vInt 4, .vStr "Scout 4"⟩] := rfl
  refine ⟨h1, h2, ?_⟩
  rw [h1, h2]
  exact .cons _ (.swap _ _ _)

/-- C8 counterexample: on the empty input the tokenizer does not return
the empty token sequence (JS split on an empty string returns the
singleton list holding the empty string). -/
theorem tokenizer_empty_counterexample : ¬ (jsTokens "" = []) := by decide

/-- C8 amended: every empty or whitespace-only input tokenizes to the
singleton sequence holding the empty token, and the parse of such an
input still yields no command. -/
theorem tokenizer_empty_amended :
    ∀ text : String, jsTrim (jsLowerStr text) = "" →
      jsTokens text = [""] ∧ parseCommand text = [] := by
  intro t h
  constructor
  · unfold jsTokens
    rw [h]
    rfl
  · unfold parseCommand parseCommandI parseFull
    rw [h]
    rfl

/-- Witness for C8: the amended statement at a whitespace-only input. -/
theorem tokenizer_empty_witness :
    jsTokens "   " = [""] ∧ parseCommand "   " = [] :=
  tokenizer_empty_amended "   " (by decide)

/-- C9: the parser silently skips unmatched chunks and returns the empty
list on empty or junk input, but it is not total: on inputs whose first
token is an inherited Object.prototype property name followed by a
number, the JS code calls an undefined feedback function and throws. -/
theorem parser_totality_status :
    parseThrows "constructor 5" = true
    ∧ parseThrows "__proto__ 4" = true
    ∧ parseCommand "" = [] ∧ parseThrows "" = false
    ∧ parseCommand "lorem ipsum words" = [] ∧ parseThrows "lorem ipsum words" = false :=
  ⟨rfl, rfl, rfl, rfl, rfl, rfl⟩

/-- C10: every non-level entry of the numberCommands table carries no
validation predicate, a missing predicate accepts every integer, and
zero, negative and large values are emitted unvalidated. -/
theorem unvalidated_number_fields :
    ((["scout", "scouted", "scouting", "seen", "taken", "opponent", "bench", "benched",
       "copy", "copies", "have", "own", "got", "holding",
       "refresh", "refreshes", "roll", "rolls"].all
        (fun w => match numberCommands w with
                  | some spec => spec.validate.isNone
                  | none => false)) = true)
    ∧ (∀ (spec : NumSpec) (n : Int), spec.validate = none → passesValidation spec n = true)
    ∧ parseCommand "scouted 0" = [⟨"scouting", .vInt 0, .vStr "Scout 0"⟩]
    ∧ parseCommand "bench -3" = [⟨"bench", .vInt (-3), .vStr "Bench -3"⟩]
    ∧ parseCommand "copy 999999999" = [⟨"copies", .vInt 999999999, .vStr "Own 999999999"⟩] := by
  refine ⟨rfl, ?_, rfl, rfl, rfl⟩
  intro spec n h
  unfold passesValidation
  rw [h]

/-- Witness for C10: a validator-free entry accepts a negative value. -/
theorem unvalidated_number_fields_witness :
    passesValidation ⟨"scouting", fun n => s!"Scout {n}", none⟩ (-7) = true :=
  unvalidated_number_fields.2.1 ⟨"scouting", fun n => s!"Scout {n}", none⟩ (-7) rfl

/-
Lemmas for the idempotence of the numeral normalizer. The structure of
the argument: a boundary-delimited occurrence of a table word consists
of letters, while every replacement inserts digits, so matches
surviving or created by a replacement map back to matches of the input;
each replace call removes all matches of its own word, later calls
preserve that, and a text with no match of any table word is a fixed
point of the whole fold.
-/

theorem wchar_of_letterCh {c : Char} (h : isLetterCh c = true) : wchar c = true := by
  unfold isLetterCh at h
  unfold wchar
  simp only [Bool.and_eq_true, Bool.or_eq_true, decide_eq_true_eq] at h ⊢
  omega

theorem wchar_of_digitCh {c : Char} (h : isDigitCh c = true) : wchar c = true := by
  unfold isDigitCh at h
  unfold wchar
  simp only [Bool.and_eq_true, Bool.or_eq_true, decide_eq_true_eq] at h ⊢
  omega

theorem letter_ne_digitCh {c c2 : Char} (h : isLetterCh c = true) (h2 : isDigitCh c2 = true) :
    c ≠ c2 := by
  intro he
  subst he
  unfold isLetterCh at h
  unfold isDigitCh at h2
  simp only [Bool.and_eq_true, decide_eq_true_eq] at h h2
  omega

theorem leadsWith_cons_iff {x : Char} {u : List Char} {y : Char} {t : List Char} :
    leadsWith (x :: u) (y :: t) = true ↔ x = y ∧ leadsWith u t = true := by
  simp [leadsWith]

theorem leadsWith_nil_cons {x : Char} {u : List Char} :
    leadsWith (x :: u) [] = false := rfl

theorem leadsWith_head_ne {x y : Char} {u t : List Char} (hne : x ≠ y) :
    leadsWith (x :: u) (y :: t) = false := by
  rw [Bool.eq_false_iff]
  intro h
  exact hne (leadsWith_cons_iff.mp h).1

theorem leadsWith_eq_append {w : List Char} :
    ∀ {l : List Char}, leadsWith w l = true → l = w ++ l.drop w.length := by
  induction w with
  | nil => intro l _; simp
  | cons x ws IH =>
      intro l h
      cases l with
      | nil => simp [leadsWith] at h
      | cons y ys =>
          obtain ⟨rfl, h2⟩ := leadsWith_cons_iff.mp h
          rw [List.length_cons, List.drop_succ_cons, List.cons_append]
          exact congrArg (List.cons x) (IH h2)

theorem fireAt_eq_true {w : List Char} {p : Bool} {l : List Char} :
    fireAt w p l = true ↔ p = false ∧ leadsWith w l = true ∧ boundaryB w l = true := by
  unfold fireAt
  cases p <;> simp

theorem fireAt_false_of_digit_head {u : List Char} {p : Bool} {x : Char} {t : List Char}
    (hu : u ≠ []) (hul : u.all isLetterCh = true) (hx : isDigitCh x = true) :
    fireAt u p (x :: t) = false := by
  cases u with
  | nil => exact absurd rfl hu
  | cons c us =>
      have hc : isLetterCh c = true := by
        simp only [List.all_cons, Bool.and_eq_true] at hul
        exact hul.1
      unfold fireAt
      rw [leadsWith_head_ne (letter_ne_digitCh hc hx)]
      simp

theorem hasMatchAux_digits_append {u : List Char} (hu : u ≠ []) (hul : u.all isLetterCh = true) :
    ∀ (d : List Char), d ≠ [] → d.all isDigitCh = true →
      ∀ (t : List Char) (p : Bool), hasMatchAux u (d ++ t) p = hasMatchAux u t true := by
  intro d
  induction d with
  | nil => intro h; exact absurd rfl h
  | cons x ds IH =>
      intro _ hdd t p
      simp only [List.all_cons, Bool.and_eq_true] at hdd
      have hstep : hasMatchAux u ((x :: ds) ++ t) p = hasMatchAux u (ds ++ t) (wchar x) := by
        simp only [List.cons_append, hasMatchAux]
        rw [fireAt_false_of_digit_head hu hul hdd.1]
        simp
      rw [hstep]
      cases ds with
      | nil => simp [wchar_of_digitCh hdd.1]
      | cons y ds2 => rw [IH (by simp) hdd.2 t (wchar x)]

theorem hasMatchAux_cons_false {u : List Char} {c : Char} {t : List Char} {p : Bool}
    (h : hasMatchAux u (c :: t) p = false) :
    fireAt u p (c :: t) = false ∧ hasMatchAux u t (wchar c) = false := by
  simp only [hasMatchAux, Bool.or_eq_false_iff] at h
  exact h

theorem noMatch_drop_word {u : List Char} :
    ∀ (w : List Char), w ≠ [] → w.all isLetterCh = true →
      ∀ (t : List Char) (p : Bool), hasMatchAux u (w ++ t) p = false →
        hasMatchAux u t true = false := by
  intro w
  induction w with
  | nil => intro h; exact absurd rfl h
  | cons x ws IH =>
      intro _ hl t p h
      simp only [List.all_cons, Bool.and_eq_true] at hl
      rw [List.cons_append] at h
      have h2 := (hasMatchAux_cons_false h).2
      cases ws with
      | nil =>
          rw [wchar_of_letterCh hl.1] at h2
          simpa using h2
      | cons y ws2 => exact IH (by simp) hl.2 t (wchar x) h2

theorem replaceAux_nil {w d : List Char} {p : Bool} : replaceAux w d [] p = [] := by
  rw [replaceAux]

theorem replaceAux_cons {w d : List Char} {c : Char} {rest : List Char} {p : Bool} :
    replaceAux w d (c :: rest) p =
      if fireAt w p (c :: rest) then
        d ++ replaceAux w d (rest.drop (w.length - 1)) (lastWchar w p)
      else
        c :: replaceAux w d rest (wchar c) := by
  rw [replaceAux]

theorem boundaryB_cons {a : Char} {v : List Char} {b : Char} {l : List Char} :
    boundaryB (a :: v) (b :: l) = boundaryB v l := by
  unfold boundaryB
  rw [List.length_cons, List.drop_succ_cons]

theorem lastWchar_letters {w : List Char} {p : Bool}
    (hw : w ≠ []) (hwl : w.all isLetterCh = true) : lastWchar w p = true := by
  unfold lastWchar
  match hlast : w.getLast? with
  | none => exact absurd (List.getLast?_eq_none_iff.mp hlast) hw
  | some c =>
      exact wchar_of_letterCh
        (List.all_eq_true.mp hwl c (List.mem_of_mem_getLast? hlast))

theorem phrase_back {w d : List Char} (hd : d ≠ []) (hdd : d.all isDigitCh = true) :
    ∀ (v : List Char), v ≠ [] → v.all isLetterCh = true →
      ∀ (t : List Char) (p : Bool),
        leadsWith v (replaceAux w d t p) = true →
        boundaryB v (replaceAux w d t p) = true →
        leadsWith v t = true ∧ boundaryB v t = true := by
  intro v
  induction v with
  | nil => intro h; exact absurd rfl h
  | cons x vs IH =>
      intro _ hvl t p hpre hbnd
      simp only [List.all_cons, Bool.and_eq_true] at hvl
      cases t with
      | nil =>
          rw [replaceAux_nil] at hpre
          exact absurd hpre (by simp [leadsWith_nil_cons])
      | cons c rest =>
          by_cases hf : fireAt w p (c :: rest) = true
          · rw [replaceAux_cons, if_pos hf] at hpre
            cases d with
            | nil => exact absurd rfl hd
            | cons y ds =>
                simp only [List.all_cons, Bool.and_eq_true] at hdd
                rw [List.cons_append, leadsWith_head_ne (letter_ne_digitCh hvl.1 hdd.1)] at hpre
                exact absurd hpre (by simp)
          · rw [replaceAux_cons, if_neg hf] at hpre hbnd
            obtain ⟨rfl, hpre2⟩ := leadsWith_cons_iff.mp hpre
            rw [boundaryB_cons] at hbnd
            cases vs with
            | nil =>
                refine ⟨by simp [leadsWith], ?_⟩
                rw [boundaryB_cons]
                cases rest with
                | nil => rfl
                | cons r0 rs =>
                    by_cases hf2 : fireAt w (wchar x) (r0 :: rs) = true
                    · rw [replaceAux_cons, if_pos hf2] at hbnd
                      cases d with
                      | nil => exact absurd rfl hd
                      | cons y ds =>
                          simp only [List.all_cons, Bool.and_eq_true] at hdd
                          rw [List.cons_append] at hbnd
                          have : boundaryB ([] : List Char) (y :: (ds ++
                              replaceAux w (y :: ds) (rs.drop (w.length - 1)) (lastWchar w (wchar x))))
                              = !wchar y := rfl
                          rw [this, wchar_of_digitCh hdd.1] at hbnd
                          exact absurd hbnd (by simp)
                    · rw [replaceAux_cons, if_neg hf2] at hbnd
                      exact hbnd
            | cons z vs2 =>
                obtain ⟨l1, b1⟩ := IH (by simp) hvl.2 rest (wchar x) hpre2 hbnd
                exact ⟨by rw [leadsWith_cons_iff]; exact ⟨rfl, l1⟩, by rw [boundaryB_cons]; exact b1⟩

theorem replace_preserves_noMatch {w d u : List Char}
    (hw : w ≠ []) (hwl : w.all isLetterCh = true)
    (hd : d ≠ []) (hdd : d.all isDigitCh = true)
    (hu : u ≠ []) (hul : u.all isLetterCh = true) :
    ∀ (n : Nat) (t : List Char) (p : Bool), t.length ≤ n →
      hasMatchAux u t p = false → hasMatchAux u (replaceAux w d t p) p = false := by
  intro n
  induction n with
  | zero =>
      intro t p hlen _
      rw [List.length_eq_zero.mp (Nat.le_zero.mp hlen), replaceAux_nil]
      rfl
  | succ m IH =>
      intro t p hlen h
      cases t with
      | nil => rw [replaceAux_nil]; rfl
      | cons c rest =>
          simp only [List.length_cons, Nat.add_le_add_iff_right] at hlen
          by_cases hf : fireAt w p (c :: rest) = true
          · rw [replaceAux_cons, if_pos hf, lastWchar_letters hw hwl,
              hasMatchAux_digits_append hu hul d hd hdd]
            have hlead : leadsWith w (c :: rest) = true := (fireAt_eq_true.mp hf).2.1
            have hdrop : (c :: rest).drop w.length = rest.drop (w.length - 1) := by
              cases w with
              | nil => exact absurd rfl hw
              | cons a as => simp
            have h2 : hasMatchAux u ((c :: rest).drop w.length) true = false := by
              apply noMatch_drop_word w hw hwl _ p
              rw [← leadsWith_eq_append hlead]
              exact h
            rw [hdrop] at h2
            apply IH _ true _ h2
            have : (rest.drop (w.length - 1)).length ≤ rest.length := by
              rw [List.length_drop]; omega
            omega
          · rw [replaceAux_cons, if_neg hf]
            obtain ⟨hfire, hrest⟩ := hasMatchAux_cons_false h
            have hout : hasMatchAux u (replaceAux w d rest (wchar c)) (wchar c) = false :=
              IH rest (wchar c) hlen hrest
            simp only [hasMatchAux]
            rw [hout]
            simp only [Bool.or_false]
            rw [Bool.eq_false_iff]
            intro hfo
            obtain ⟨hp, hl2, hb2⟩ := fireAt_eq_true.mp hfo
            have heq : c :: replaceAux w d rest (wchar c) = replaceAux w d (c :: rest) p := by
              rw [replaceAux_cons, if_neg hf]
            rw [heq] at hl2 hb2
            obtain ⟨l3, b3⟩ := phrase_back hd hdd u hu hul (c :: rest) p hl2 hb2
            rw [fireAt_eq_true.mpr ⟨hp, l3, b3⟩] at hfire
            exact Bool.true_eq_false.mp hfire

theorem replace_self_noMatch {w d : List Char}
    (hw : w ≠ []) (hwl : w.all isLetterCh = true)
    (hd : d ≠ []) (hdd : d.all isDigitCh = true) :
    ∀ (n : Nat) (t : List Char) (p : Bool), t.length ≤ n →
      hasMatchAux w (replaceAux w d t p) p = false := by
  intro n
  induction n with
  | zero =>
      intro t p hlen
      rw [List.length_eq_zero.mp (Nat.le_zero.mp hlen), replaceAux_nil]
      rfl
  | succ m IH =>
      intro t p hlen
      cases t with
      | nil => rw [replaceAux_nil]; rfl
      | cons c rest =>
          simp only [List.length_cons, Nat.add_le_add_iff_right] at hlen
          by_cases hf : fireAt w p (c :: rest) = true
          · rw [replaceAux_cons, if_pos hf, lastWchar_letters hw hwl,
              hasMatchAux_digits_append hw hwl d hd hdd]
            apply IH _ true
            have : (rest.drop (w.length - 1)).length ≤ rest.length := by
              rw [List.length_drop]; omega
            omega
          · rw [replaceAux_cons, if_neg hf]
            simp only [hasMatchAux]
            rw [IH rest (wchar c) hlen]
            simp only [Bool.or_false]
            rw [Bool.eq_false_iff]
            intro hfo
            obtain ⟨hp, hl2, hb2⟩ := fireAt_eq_true.mp hfo
            have heq : c :: replaceAux w d rest (wchar c) = replaceAux w d (c :: rest) p := by
              rw [replaceAux_cons, if_neg hf]
            rw [heq] at hl2 hb2
            obtain ⟨l3, b3⟩ := phrase_back hd hdd w hw hwl (c :: rest) p hl2 hb2
            exact hf (fireAt_eq_true.mpr ⟨hp, l3, b3⟩)

theorem replace_id {w d : List Char} :
    ∀ (t : List Char) (p : Bool), hasMatchAux w t p = false → replaceAux w d t p = t := by
  intro t
  induction t with
  | nil => intro p _; rw [replaceAux_nil]
  | cons c rest IH =>
      intro p h
      obtain ⟨hfire, hrest⟩ := hasMatchAux_cons_false h
      rw [replaceAux_cons, if_neg (by simp [hfire]), IH (wchar c) hrest]

theorem replace_chars {w d : List Char} (hdd : d.all isDigitCh = true) :
    ∀ (n : Nat) (t : List Char) (p : Bool), t.length ≤ n →
      ∀ c ∈ replaceAux w d t p, c ∈ t ∨ isDigitCh c = true := by
  intro n
  induction n with
  | zero =>
      intro t p hlen c hc
      rw [List.length_eq_zero.mp (Nat.le_zero.mp hlen), replaceAux_nil] at hc
      simp at hc
  | succ m IH =>
      intro t p hlen c hc
      cases t with
      | nil => rw [replaceAux_nil] at hc; simp at hc
      | cons a rest =>
          simp only [List.length_cons, Nat.add_le_add_iff_right] at hlen
          by_cases hf : fireAt w p (a :: rest) = true
          · rw [replaceAux_cons, if_pos hf] at hc
            rcases List.mem_append.mp hc with hcd | hcr
            · exact Or.inr (List.all_eq_true.mp hdd c hcd)
            · have hdl : (rest.drop (w.length - 1)).length ≤ m := by
                have : (rest.drop (w.length - 1)).length ≤ rest.length := by
                  rw [List.length_drop]; omega
                omega
              rcases IH (rest.drop (w.length - 1)) (lastWchar w p) hdl c hcr with hm | hdig
              · exact Or.inl (List.mem_cons_of_mem a (List.mem_of_mem_drop hm))
              · exact Or.inr hdig
          · rw [replaceAux_cons, if_neg hf] at hc
            rcases List.mem_cons.mp hc with rfl | hc2
            · exact Or.inl (List.mem_cons_self c rest)
            · rcases IH rest (wchar a) hlen c hc2 with hm | hdig
              · exact Or.inl (List.mem_cons_of_mem a hm)
              · exact Or.inr hdig

theorem fold_preserves_noMatch {u : List Char} (hu : u ≠ []) (hul : u.all isLetterCh = true) :
    ∀ (ps : List (String × String)) (l : List Char),
      (∀ q ∈ ps, q.1.data ≠ [] ∧ q.1.data.all isLetterCh = true ∧
          q.2.data ≠ [] ∧ q.2.data.all isDigitCh = true) →
      hasMatchAux u l false = false →
      hasMatchAux u
        (ps.foldl (fun acc wd => replaceAux wd.1.data wd.2.data acc false) l) false = false := by
  intro ps
  induction ps with
  | nil => intro l _ h; exact h
  | cons q ps2 IH =>
      intro l hgood h
      have hq := hgood q (by simp)
      simp only [List.foldl_cons]
      exact IH _ (fun r hr => hgood r (by simp [hr]))
        (replace_preserves_noMatch hq.1 hq.2.1 hq.2.2.1 hq.2.2.2 hu hul l.length l false le_rfl h)

theorem fold_all_noMatch :
    ∀ (ps : List (String × String)) (l : List Char),
      (∀ q ∈ ps, q.1.data ≠ [] ∧ q.1.data.all isLetterCh = true ∧
          q.2.data ≠ [] ∧ q.2.data.all isDigitCh = true) →
      ∀ q ∈ ps, hasMatchAux q.1.data
        (ps.foldl (fun acc wd => replaceAux wd.1.data wd.2.data acc false) l) false = false := by
  intro ps
  induction ps with
  | nil => intro l _ q hq; simp at hq
  | cons q0 ps2 IH =>
      intro l hgood q hq
      have hq0 := hgood q0 (by simp)
      simp only [List.foldl_cons]
      rcases List.mem_cons.mp hq with rfl | hq2
      · exact fold_preserves_noMatch hq0.1 hq0.2.1 ps2 _ (fun r hr => hgood r (by simp [hr]))
          (replace_self_noMatch hq0.1 hq0.2.1 hq0.2.2.1 hq0.2.2.2 l.length l false le_rfl)
      · exact IH _ (fun r hr => hgood r (by simp [hr])) q hq2

theorem fold_id :
    ∀ (ps : List (String × String)) (l : List Char),
      (∀ q ∈ ps, hasMatchAux q.1.data l false = false) →
      ps.foldl (fun acc wd => replaceAux wd.1.data wd.2.data acc false) l = l := by
  intro ps
  induction ps with
  | nil => intro l _; rfl
  | cons q ps2 IH =>
      intro l h
      simp only [List.foldl_cons]
      rw [replace_id l false (h q (by simp))]
      exact IH l (fun r hr => h r (by simp [hr]))

theorem fold_chars :
    ∀ (ps : List (String × String)) (l : List Char),
      (∀ q ∈ ps, q.2.data.all isDigitCh = true) →
      ∀ c ∈ ps.foldl (fun acc wd => replaceAux wd.1.data wd.2.data acc false) l,
        c ∈ l ∨ isDigitCh c = true := by
  intro ps
  induction ps with
  | nil => intro l _ c hc; exact Or.inl hc
  | cons q ps2 IH =>
      intro l hgood c hc
      simp only [List.foldl_cons] at hc
      rcases IH _ (fun r hr => hgood r (by simp [hr])) c hc with hm | hd
      · exact replace_chars (hgood q (by simp)) l.length l false le_rfl c hm
      · exact Or.inr hd

theorem toNat_ofNat_valid {n : Nat} (h : n < 55296) : (Char.ofNat n).toNat = n := by
  unfold Char.ofNat
  rw [dif_pos (Or.inl h)]
  rfl

theorem toLower_idem (c : Char) : Char.toLower (Char.toLower c) = Char.toLower c := by
  unfold Char.toLower
  by_cases h : c.toNat ≥ 65 ∧ c.toNat ≤ 90
  · rw [if_pos h]
    have hv : (Char.ofNat (c.toNat + 32)).toNat = c.toNat + 32 := toNat_ofNat_valid (by omega)
    rw [if_neg (by omega)]
  · rw [if_neg h, if_neg h]

theorem toLower_fix_digit {c : Char} (h : isDigitCh c = true) : Char.toLower c = c := by
  unfold isDigitCh at h
  simp only [Bool.and_eq_true, decide_eq_true_eq] at h
  unfold Char.toLower
  rw [if_neg (by omega)]

/-- C7: the numeral normalizer is idempotent: normalizing already
normalized text changes nothing, for every input string. -/
theorem numeral_normalizer_idempotent :
    ∀ s : String, convertWordsToNumbers (convertWordsToNumbers s) = convertWordsToNumbers s := by
  intro s
  have hgood : ∀ q ∈ sortedWords, q.1.data ≠ [] ∧ q.1.data.all isLetterCh = true ∧
      q.2.data ≠ [] ∧ q.2.data.all isDigitCh = true := by decide
  unfold convertWordsToNumbers
  congr 1
  show convertChars (convertChars s.data) = convertChars s.data
  have hnom : ∀ q ∈ sortedWords, hasMatchAux q.1.data (convertChars s.data) false = false := by
    intro q hq
    unfold convertChars
    exact fold_all_noMatch sortedWords (s.data.map Char.toLower) hgood q hq
  have hfix : ∀ c ∈ convertChars s.data, Char.toLower c = c := by
    intro c hc
    unfold convertChars at hc
    rcases fold_chars sortedWords (s.data.map Char.toLower)
        (fun q hq => (hgood q hq).2.2.2) c hc with hm | hd
    · obtain ⟨c0, _, rfl⟩ := List.mem_map.mp hm
      exact toLower_idem c0
    · exact toLower_fix_digit hd
  conv_lhs => rw [convertChars]
  rw [show (convertChars s.data).map Char.toLower = convertChars s.data from by
    rw [List.map_congr_left hfix]
    exact List.map_id (convertChars s.data)]
  exact fold_id sortedWords (convertChars s.data) hnom

/-
Lemmas for the consumption exclusivity of the chunk parser. The
invariant: recorded source-token sets are pairwise disjoint and all
marked consumed; through the toggle and wild passes an additional
vocabulary invariant justifies the unconditional consumed assignments
of the target-is-wild phrase branch.
-/

theorem markAll_length (ts : List Nat) : ∀ c : List Bool, (markAll ts c).length = c.length := by
  induction ts with
  | nil => intro c; rfl
  | cons t ts2 IH =>
      intro c
      show (markAll ts2 (c.set t true)).length = c.length
      rw [IH (c.set t true), List.length_set]

theorem getD_set_true (c : List Bool) (u t : Nat) :
    (c.set u true).getD t false
      = if t = u ∧ u < c.length then true else c.getD t false := by
  by_cases h1 : u = t
  · subst h1
    by_cases h2 : u < c.length
    · simp [h2, List.getD_eq_getElem?_getD, List.getElem?_set]
    · simp [h2, List.getD_eq_getElem?_getD, List.getElem?_set,
        List.getElem?_eq_none (show c.length ≤ u by omega)]
  · have h1t : t ≠ u := fun h => h1 h.symm
    simp [List.getD_eq_getElem?_getD, List.getElem?_set, h1, h1t]

theorem getD_markAll_mono {c : List Bool} {t : Nat} (h : c.getD t false = true) :
    ∀ ts, (markAll ts c).getD t false = true := by
  intro ts
  induction ts generalizing c with
  | nil => exact h
  | cons u ts2 IH =>
      show (markAll ts2 (c.set u true)).getD t false = true
      apply IH
      rw [getD_set_true]
      by_cases hc : t = u ∧ u < c.length
      · rw [if_pos hc]
      · rw [if_neg hc]; exact h

theorem getD_markAll_of_mem {c : List Bool} {t : Nat} (hlen : t < c.length) :
    ∀ ts, t ∈ ts → (markAll ts c).getD t false = true := by
  intro ts
  induction ts generalizing c with
  | nil => intro h; simp at h
  | cons u ts2 IH =>
      intro hm
      show (markAll ts2 (c.set u true)).getD t false = true
      rcases List.mem_cons.mp hm with rfl | hm2
      · apply getD_markAll_mono
        rw [getD_set_true, if_pos ⟨rfl, hlen⟩]
      · exact IH (by rw [List.length_set]; exact hlen) hm2

theorem getD_markAll_not_mem {c : List Bool} {t : Nat} :
    ∀ ts, t ∉ ts → (markAll ts c).getD t false = c.getD t false := by
  intro ts
  induction ts generalizing c with
  | nil => intro _; rfl
  | cons u ts2 IH =>
      intro hm
      have ht1 : t ≠ u := fun h => hm (by simp [h])
      have ht2 : t ∉ ts2 := fun h => hm (by simp [h])
      show (markAll ts2 (c.set u true)).getD t false = c.getD t false
      rw [IH ht2, getD_set_true, if_neg (fun hc => ht1 hc.1)]

theorem cget_push_mono {st : PState} {c : Command} {ts : List Nat} {j : Nat}
    (h : cget st j = true) : cget (pushCmd c ts st) j = true :=
  getD_markAll_mono h ts

theorem cget_push_of_mem {st : PState} {c : Command} {ts : List Nat} {t : Nat}
    (hlen : t < st.consumed.length) (hm : t ∈ ts) : cget (pushCmd c ts st) t = true :=
  getD_markAll_of_mem hlen ts hm

theorem cget_push_cases {st : PState} {c : Command} {ts : List Nat} {j : Nat}
    (h : cget (pushCmd c ts st) j = true) : j ∈ ts ∨ cget st j = true := by
  by_cases hm : j ∈ ts
  · exact Or.inl hm
  · right
    unfold cget pushCmd at h
    rwa [getD_markAll_not_mem ts hm] at h

theorem ParseInv_push {n : Nat} {st : PState} (hinv : ParseInv n st) (c : Command) (ts : List Nat)
    (hfresh : ∀ t ∈ ts, t < n ∧ cget st t = false) :
    ParseInv n (pushCmd c ts st) := by
  unfold ParseInv at hinv ⊢
  obtain ⟨hlen, hpw, hcon⟩ := hinv
  refine ⟨?_, ?_, ?_⟩
  · show (markAll ts st.consumed).length = n
    rw [markAll_length, hlen]
  · show (st.cmds ++ [PCmd.mk c ts]).Pairwise DisjTo
    rw [List.pairwise_append]
    refine ⟨hpw, List.pairwise_singleton _ _, ?_⟩
    intro a ha b hb
    simp only [List.mem_singleton] at hb
    subst hb
    intro t hta htb
    have h1 := hcon a ha t hta
    have h2 := (hfresh t htb).2
    unfold cget at h2
    rw [h1] at h2
    exact Bool.true_eq_false.mp h2
  · intro cc hcc t ht
    show (markAll ts st.consumed).getD t false = true
    rcases List.mem_append.mp hcc with hold | hnew
    · exact getD_markAll_mono (hcon cc hold t ht) ts
    · simp only [List.mem_singleton] at hnew
      subst hnew
      exact getD_markAll_of_mem (by rw [hlen]; exact (hfresh t ht).1) ts ht

theorem foldl_range_inv {σ : Type} (step : σ → Nat → σ) (P : Nat → σ → Prop) :
    ∀ (n : Nat), (∀ i s, i < n → P i s → P (i+1) (step s i)) →
      ∀ s, P 0 s → P n ((List.range n).foldl step s) := by
  intro n
  induction n with
  | zero => intro _ s h0; exact h0
  | succ m IH =>
      intro hstep s h0
      rw [List.range_succ, List.foldl_append]
      simp only [List.foldl_cons, List.foldl_nil]
      exact hstep m _ (by omega) (IH (fun i s2 hi hp => hstep i s2 (by omega) hp) s h0)

theorem tokAt_lt {toks : List String} {j : Nat} (h : tokAt toks j ≠ "") : j < toks.length := by
  by_contra hge
  exact h (List.getD_eq_default _ _ (by omega))

theorem cget_init {toks : List String} {j : Nat} : cget (initState toks) j = false := by
  unfold cget initState
  rw [List.getD_eq_getElem?_getD, List.getElem?_replicate]
  split_ifs <;> rfl

theorem toggle_words_vocab {e : ToggleSpec} (he : e = dittoSpec ∨ e = pveSpec) {s : String}
    (h : s ∈ e.onWords ∨ s ∈ e.offWords) : ToggleVocab s := by
  unfold ToggleVocab
  rcases he with rfl | rfl <;> rcases h with h | h <;> fin_cases h <;> decide

theorem toggle_keyword_vocab {e : ToggleSpec} (he : e = dittoSpec ∨ e = pveSpec) :
    ToggleVocab e.keyword := by
  unfold ToggleVocab
  rcases he with rfl | rfl <;> decide

theorem tryToggleFire_some {e : ToggleSpec} {toks : List String} {st : PState} {i : Nat}
    {st2 : PState} (h : tryToggleFire e toks st i = some st2) :
    ∃ (onv : Bool) (S : List Nat), st2 = pushCmd (toggleCmd e onv) S st ∧
      ((S = [i, i-1] ∧ 0 < i ∧ cget st (i-1) = false ∧
          (tokAt toks (i-1) ∈ e.onWords ∨ tokAt toks (i-1) ∈ e.offWords))
       ∨ (S = [i, i+1] ∧ i+1 < toks.length ∧ cget st (i+1) = false ∧
          (tokAt toks (i+1) ∈ e.onWords ∨ tokAt toks (i+1) ∈ e.offWords))) := by
  unfold tryToggleFire at h
  split_ifs at h with h1 h2 h3 h4
  · exact ⟨true, [i, i-1], (Option.some_inj.mp h).symm,
      Or.inl ⟨rfl, h1.1, h1.2.1, Or.inl h1.2.2⟩⟩
  · exact ⟨false, [i, i-1], (Option.some_inj.mp h).symm,
      Or.inl ⟨rfl, h2.1, h2.2.1, Or.inr h2.2.2⟩⟩
  · exact ⟨true, [i, i+1], (Option.some_inj.mp h).symm,
      Or.inr ⟨rfl, h3.1, h3.2.1, Or.inl h3.2.2⟩⟩
  · exact ⟨false, [i, i+1], (Option.some_inj.mp h).symm,
      Or.inr ⟨rfl, h4.1, h4.2.1, Or.inr h4.2.2⟩⟩

theorem toggle_fire_inv {e : ToggleSpec} {toks : List String} {st : PState} {i : Nat}
    {st2 : PState} (he : e = dittoSpec ∨ e = pveSpec)
    (hi : i < toks.length) (hci : cget st i = false) (hkey : tokAt toks i = e.keyword)
    (hinv : TogInv toks st) (h : tryToggleFire e toks st i = some st2) : TogInv toks st2 := by
  unfold TogInv at hinv ⊢
  obtain ⟨hpinv, hvoc⟩ := hinv
  obtain ⟨onv, S, rfl, hcase⟩ := tryToggleFire_some h
  have hfresh : ∀ t ∈ S, t < toks.length ∧ cget st t = false := by
    intro t ht
    rcases hcase with ⟨rfl, hpos, hcg, _⟩ | ⟨rfl, hlt, hcg, _⟩ <;> simp at ht <;>
      rcases ht with rfl | rfl
    · exact ⟨hi, hci⟩
    · exact ⟨by omega, hcg⟩
    · exact ⟨hi, hci⟩
    · exact ⟨hlt, hcg⟩
  refine ⟨ParseInv_push hpinv _ _ hfresh, ?_⟩
  intro j hj
  rcases cget_push_cases hj with hm | hold
  · rcases hcase with ⟨rfl, _, _, hw⟩ | ⟨rfl, _, _, hw⟩ <;> simp at hm <;>
      rcases hm with rfl | rfl
    · rw [hkey]; exact toggle_keyword_vocab he
    · exact toggle_words_vocab he hw
    · rw [hkey]; exact toggle_keyword_vocab he
    · exact toggle_words_vocab he hw
  · exact hvoc j hold

theorem toggleStep_inv {toks : List String} {st : PState} {i : Nat}
    (hi : i < toks.length) (hinv : TogInv toks st) : TogInv toks (toggleStep toks st i) := by
  unfold toggleStep
  by_cases hc : cget st i = true
  · rw [if_pos hc]
    exact hinv
  · rw [if_neg hc]
    rw [Bool.not_eq_true] at hc
    by_cases hd : tokAt toks i = dittoSpec.keyword
    · rw [if_pos hd]
      rcases hfire : tryToggleFire dittoSpec toks st i with _ | st2
      · simp only [hfire]
        by_cases hp : tokAt toks i = pveSpec.keyword
        · rw [if_pos hp]
          rcases hfire2 : tryToggleFire pveSpec toks st i with _ | st3
          · exact hinv
          · exact toggle_fire_inv (Or.inr rfl) hi hc hp hinv hfire2
        · rw [if_neg hp]
          exact hinv
      · simp only [hfire]
        exact toggle_fire_inv (Or.inl rfl) hi hc hd hinv hfire
    · rw [if_neg hd]
      by_cases hp : tokAt toks i = pveSpec.keyword
      · rw [if_pos hp]
        rcases hfire2 : tryToggleFire pveSpec toks st i with _ | st3
        · exact hinv
        · exact toggle_fire_inv (Or.inr rfl) hi hc hp hinv hfire2
      · rw [if_neg hp]
        exact hinv

theorem togglePass_inv {toks : List String} {st : PState}
    (hinv : TogInv toks st) : TogInv toks (togglePass toks st) := by
  unfold togglePass
  by_cases hcr : st.crashed = true
  · rw [if_pos hcr]; exact hinv
  · rw [if_neg hcr]
    exact foldl_range_inv (toggleStep toks) (fun _ s => TogInv toks s) toks.length
      (fun i s hi hp => toggleStep_inv hi hp) st hinv

theorem WOK_mono {toks : List String} {st st2 : PState} {bound bound2 j : Nat}
    (hst : ∀ k, cget st k = true → cget st2 k = true) (hb : bound ≤ bound2)
    (h : WOK toks st bound j) : WOK toks st2 bound2 j := by
  unfold WOK at h ⊢
  rcases h with h | h | ⟨hw, h⟩ | ⟨h1, h2, h3, h4⟩
  · exact Or.inl h
  · exact Or.inr (Or.inl h)
  · refine Or.inr (Or.inr (Or.inl ⟨hw, ?_⟩))
    rcases h with h | ⟨a, b, c⟩
    · exact Or.inl (by omega)
    · exact Or.inr ⟨a, hst _ b, c⟩
  · exact Or.inr (Or.inr (Or.inr ⟨h1, h2, hst _ h3, h4⟩))

theorem wild_push_inv {toks : List String} {st : PState} {i : Nat}
    (hi : i < toks.length) (hc : cget st i = false) (hpinv : ParseInv toks.length st)
    (hwok : ∀ j, cget st j = true → WOK toks st i j) (hw : tokAt toks i = "wild")
    (S : List Nat)
    (hS : ∀ t ∈ S, t = i ∨
      (t = i-1 ∧ 0 < i ∧ tokAt toks (i-1) = "target" ∧ cget st (i-1) = false) ∨
      (t = i+1 ∧ i+1 < toks.length ∧ tokAt toks (i+1) = "target" ∧ cget st (i+1) = false)) :
    WildInv toks (i+1) (pushCmd wildCmd S st) := by
  unfold WildInv
  have hfresh : ∀ t ∈ S, t < toks.length ∧ cget st t = false := by
    intro t ht
    rcases hS t ht with rfl | ⟨rfl, hpos, _, hcg⟩ | ⟨rfl, hlt, _, hcg⟩
    · exact ⟨hi, hc⟩
    · exact ⟨by omega, hcg⟩
    · exact ⟨hlt, hcg⟩
  refine ⟨ParseInv_push hpinv _ _ hfresh, ?_⟩
  intro j hj
  rcases cget_push_cases hj with hm | hold
  · rcases hS j hm with rfl | ⟨rfl, _, htg, _⟩ | ⟨rfl, _, htg, _⟩
    · unfold WOK
      exact Or.inr (Or.inr (Or.inl ⟨hw, Or.inl (by omega)⟩))
    · unfold WOK
      exact Or.inr (Or.inl htg)
    · unfold WOK
      exact Or.inr (Or.inl htg)
  · exact WOK_mono (fun k hk => cget_push_mono hk) (by omega) (hwok j hold)

theorem wildTryBare_inv {toks : List String} {st : PState} {i : Nat}
    (hi : i < toks.length) (hc : cget st i = false) (hpinv : ParseInv toks.length st)
    (hwok : ∀ j, cget st j = true → WOK toks st i j) (hw : tokAt toks i = "wild") :
    WildInv toks (i+1) (wildTryBare toks st i) := by
  unfold wildTryBare
  rw [if_pos hw]
  apply wild_push_inv hi hc hpinv hwok hw
  intro t ht
  by_cases hp1 : (0 < i ∧ tokAt toks (i-1) = "target" ∧ cget st (i-1) = false)
  · rw [if_pos hp1] at ht
    by_cases hp2 : (i+1 < toks.length ∧ tokAt toks (i+1) = "target" ∧ cget st (i+1) = false)
    · rw [if_pos hp2] at ht
      simp only [List.cons_append, List.nil_append, List.mem_cons,
        List.not_mem_nil, or_false] at ht
      rcases ht with rfl | rfl | rfl
      · exact Or.inl rfl
      · exact Or.inr (Or.inl ⟨rfl, hp1⟩)
      · exact Or.inr (Or.inr ⟨rfl, hp2⟩)
    · rw [if_neg hp2] at ht
      simp only [List.cons_append, List.nil_append, List.append_nil, List.mem_cons,
        List.not_mem_nil, or_false] at ht
      rcases ht with rfl | rfl
      · exact Or.inl rfl
      · exact Or.inr (Or.inl ⟨rfl, hp1⟩)
  · rw [if_neg hp1] at ht
    by_cases hp2 : (i+1 < toks.length ∧ tokAt toks (i+1) = "target" ∧ cget st (i+1) = false)
    · rw [if_pos hp2] at ht
      simp only [List.cons_append, List.nil_append, List.append_nil, List.mem_cons,
        List.not_mem_nil, or_false] at ht
      rcases ht with rfl | rfl
      · exact Or.inl rfl
      · exact Or.inr (Or.inr ⟨rfl, hp2⟩)
    · rw [if_neg hp2] at ht
      simp only [List.cons_append, List.nil_append, List.append_nil, List.mem_cons,
        List.not_mem_nil, or_false] at ht
      rcases ht with rfl
      exact Or.inl rfl

theorem wild_phrase_inv {toks : List String} {st : PState} {i : Nat}
    (hi : i < toks.length) (hc : cget st i = false) (hpinv : ParseInv toks.length st)
    (hwok : ∀ j, cget st j = true → WOK toks st i j)
    (h1 : tokAt toks i = "target") (h2 : tokAt toks (i+1) = "is")
    (h3 : tokAt toks (i+2) = "wild") :
    WildInv toks (i+1) (pushCmd wildCmd [i, i+1, i+2] st) := by
  have hf1 : cget st (i+1) = false := by
    by_contra hcc
    rw [Bool.not_eq_false] at hcc
    have hk := hwok _ hcc
    unfold WOK at hk
    rcases hk with hv | he | ⟨hwld, _⟩ | ⟨_, _, hcg, _⟩
    · rw [h2] at hv; exact absurd hv (by unfold ToggleVocab; decide)
    · rw [h2] at he; exact absurd he (by decide)
    · rw [h2] at hwld; exact absurd hwld (by decide)
    · simp only [Nat.add_sub_cancel] at hcg
      rw [hc] at hcg
      exact absurd hcg (by decide)
  have hf2 : cget st (i+2) = false := by
    by_contra hcc
    rw [Bool.not_eq_false] at hcc
    have hk := hwok _ hcc
    unfold WOK at hk
    rcases hk with hv | he | ⟨hwld, hx⟩ | ⟨his, _, _, _⟩
    · rw [h3] at hv; exact absurd hv (by unfold ToggleVocab; decide)
    · rw [h3] at he; exact absurd he (by decide)
    · rcases hx with hlt | ⟨_, hcg, _⟩
      · omega
      · rw [show i+2-1 = i+1 from by omega, hf1] at hcg
        exact absurd hcg (by decide)
    · rw [h3] at his; exact absurd his (by decide)
  have hr1 : i+1 < toks.length := tokAt_lt (by rw [h2]; decide)
  have hr2 : i+2 < toks.length := tokAt_lt (by rw [h3]; decide)
  have hlen : st.consumed.length = toks.length := by
    unfold ParseInv at hpinv
    exact hpinv.1
  have hfresh : ∀ t ∈ [i, i+1, i+2], t < toks.length ∧ cget st t = false := by
    intro t ht
    simp only [List.mem_cons, List.mem_singleton, List.not_mem_nil, or_false] at ht
    rcases ht with rfl | rfl | rfl
    · exact ⟨hi, hc⟩
    · exact ⟨hr1, hf1⟩
    · exact ⟨hr2, hf2⟩
  unfold WildInv
  refine ⟨ParseInv_push hpinv _ _ hfresh, ?_⟩
  intro j hj
  rcases cget_push_cases hj with hm | hold
  · simp only [List.mem_cons, List.mem_singleton, List.not_mem_nil, or_false] at hm
    rcases hm with rfl | rfl | rfl
    · unfold WOK
      exact Or.inr (Or.inl h1)
    · unfold WOK
      refine Or.inr (Or.inr (Or.inr ⟨h2, by omega, ?_, ?_⟩))
      · simp only [Nat.add_sub_cancel]
        exact cget_push_of_mem (by rw [hlen]; exact hi) (by simp)
      · simp only [Nat.add_sub_cancel]
        exact h1
    · unfold WOK
      refine Or.inr (Or.inr (Or.inl ⟨h3, Or.inr ⟨by omega, ?_, ?_⟩⟩))
      · rw [show i+2-1 = i+1 from by omega]
        exact cget_push_of_mem (by rw [hlen]; exact hr1) (by simp)
      · rw [show i+2-1 = i+1 from by omega]
        exact h2
  · exact WOK_mono (fun k hk => cget_push_mono hk) (by omega) (hwok j hold)

theorem wildStep_inv {toks : List String} {st : PState} {i : Nat}
    (hi : i < toks.length) (hinv : WildInv toks i st) :
    WildInv toks (i+1) (wildStep toks st i) := by
  unfold WildInv at hinv
  obtain ⟨hpinv, hwok⟩ := hinv
  have hmono0 : WildInv toks (i+1) st := by
    unfold WildInv
    exact ⟨hpinv, fun j hj => WOK_mono (fun k hk => hk) (by omega) (hwok j hj)⟩
  unfold wildStep
  by_cases hcg : cget st i = true
  · rw [if_pos hcg]
    exact hmono0
  · rw [if_neg hcg]
    rw [Bool.not_eq_true] at hcg
    by_cases hw : tokAt toks i = "wild"
    · have hnp : ¬ (tokAt toks i = "target" ∧ tokAt toks (i+1) = "is"
          ∧ tokAt toks (i+2) = "wild") := by
        intro hcc
        rw [hw] at hcc
        exact absurd hcc.1 (by decide)
      unfold wildTryPhrase
      rw [if_neg hnp]
      exact wildTryBare_inv hi hcg hpinv hwok hw
    · have hbare : wildTryBare toks st i = st := by
        unfold wildTryBare
        rw [if_neg hw]
      rw [hbare]
      unfold wildTryPhrase
      by_cases hph : (tokAt toks i = "target" ∧ tokAt toks (i+1) = "is"
          ∧ tokAt toks (i+2) = "wild")
      · rw [if_pos hph]
        exact wild_phrase_inv hi hcg hpinv hwok hph.1 hph.2.1 hph.2.2
      · rw [if_neg hph]
        exact hmono0

theorem wildPass_inv {toks : List String} {st : PState}
    (hinv : WildInv toks 0 st) : WildInv toks toks.length (wildPass toks st) := by
  unfold wildPass
  by_cases hcr : st.crashed = true
  · rw [if_pos hcr]
    obtain ⟨hpinv, hwok⟩ := hinv
    exact ⟨hpinv, fun j hj => WOK_mono (fun k hk => hk) (by omega) (hwok j hj)⟩
  · rw [if_neg hcr]
    exact foldl_range_inv (wildStep toks) (fun b s => WildInv toks b s) toks.length
      (fun i s hilt hp => wildStep_inv hilt hp) st hinv

theorem numCandidate_some {toks : List String} {st : PState} {j : Nat} {v : Int} {k : Nat}
    (h : numCandidate toks st j = some (v, k)) :
    k = j ∧ j < toks.length ∧ cget st j = false := by
  unfold numCandidate at h
  split_ifs at h with h1
  · rcases hp : jsParseInt (tokAt toks j) with _ | nn
    · rw [hp] at h
      exact absurd h (by simp)
    · rw [hp] at h
      simp only [Option.some_inj, Prod.mk.injEq] at h
      exact ⟨h.2.symm, h1.1, h1.2⟩

theorem findNum_some {toks : List String} {st : PState} {i : Nat} {v : Int} {j : Nat}
    (h : findNum toks st i = some (v, j)) :
    j < toks.length ∧ cget st j = false := by
  unfold findNum at h
  rcases h1 : numCandidate toks st (i+1) with _ | r1
  · rw [h1] at h
    rcases h2 : numCandidate toks st (i+2) with _ | r2
    · rw [h2] at h
      split_ifs at h with h0 h4
      · rcases h3 : numCandidate toks st (i-1) with _ | r3
        · rw [h3] at h
          obtain ⟨rfl, hj, hc⟩ := numCandidate_some h
          exact ⟨hj, hc⟩
        · rw [h3] at h
          simp only [Option.some_inj] at h
          subst h
          obtain ⟨rfl, hj, hc⟩ := numCandidate_some h3
          exact ⟨hj, hc⟩
      · rcases h3 : numCandidate toks st (i-1) with _ | r3
        · rw [h3] at h
          exact absurd h (by simp)
        · rw [h3] at h
          simp only [Option.some_inj] at h
          subst h
          obtain ⟨rfl, hj, hc⟩ := numCandidate_some h3
          exact ⟨hj, hc⟩
    · rw [h2] at h
      simp only [Option.some_inj] at h
      subst h
      obtain ⟨rfl, hj, hc⟩ := numCandidate_some h2
      exact ⟨hj, hc⟩
  · rw [h1] at h
    simp only [Option.some_inj] at h
    subst h
    obtain ⟨rfl, hj, hc⟩ := numCandidate_some h1
    exact ⟨hj, hc⟩

theorem numStep_inv {toks : List String} {st : PState} {i : Nat}
    (hinv : ParseInv toks.length st) : ParseInv toks.length (numStep toks st i) := by
  unfold numStep
  by_cases hcr : st.crashed = true
  · rw [if_pos hcr]
    exact hinv
  rw [if_neg hcr]
  by_cases hc : cget st i = true
  · rw [if_pos hc]
    exact hinv
  rw [if_neg hc]
  rw [Bool.not_eq_true] at hc
  rcases hnc : numberCommands (tokAt toks i) with _ | spec <;> simp only [hnc]
  · by_cases hp : tokAt toks i ∈ protoProps
    · rw [if_pos hp]
      rcases hf : findNum toks st i with _ | r <;> simp only [hf]
      · exact hinv
      · unfold ParseInv at hinv ⊢
        exact hinv
    · rw [if_neg hp]
      exact hinv
  · rcases hf : findNum toks st i with _ | r <;> simp only [hf]
    · exact hinv
    · rcases r with ⟨v, j⟩
      by_cases hv : passesValidation spec v = true
      · rw [if_pos hv]
        apply ParseInv_push hinv
        intro t ht
        simp only [List.mem_cons, List.mem_singleton, List.not_mem_nil, or_false] at ht
        rcases ht with rfl | rfl
        · refine ⟨tokAt_lt ?_, hc⟩
          intro he
          rw [he, show (numberCommands "" : Option NumSpec) = none from rfl] at hnc
          exact Option.noConfusion hnc
        · obtain ⟨hj, hcj⟩ := findNum_some hf
          exact ⟨hj, hcj⟩
      · rw [if_neg hv]
        exact hinv

theorem numPass_inv {toks : List String} {st : PState}
    (hinv : ParseInv toks.length st) : ParseInv toks.length (numPass toks st) := by
  unfold numPass
  exact foldl_range_inv (numStep toks) (fun _ s => ParseInv toks.length s) toks.length
    (fun i s hilt hp => numStep_inv hp) st hinv

theorem rarityPass_inv {toks : List String} {st : PState}
    (hinv : ParseInv toks.length st) : ParseInv toks.length (rarityPass toks st) := by
  unfold rarityPass
  by_cases hcr : st.crashed = true
  · rw [if_pos hcr]
    exact hinv
  rw [if_neg hcr]
  rcases hfind : (List.range toks.length).find? (rarityHit toks st) with _ | i <;>
    simp only [hfind]
  · exact hinv
  · have hp := List.find?_some hfind
    have hmem := List.mem_of_find?_eq_some hfind
    rw [List.mem_range] at hmem
    unfold rarityHit at hp
    simp only [Bool.and_eq_true, Bool.not_eq_true'] at hp
    have hfresh : ∀ t ∈ [i], t < toks.length ∧ cget st t = false := by
      intro t ht
      simp only [List.mem_singleton] at ht
      subst ht
      exact ⟨hmem, hp.1⟩
    rcases raritiesOwn (tokAt toks i) with _ | v
    · exact ParseInv_push hinv _ _ hfresh
    · exact ParseInv_push hinv _ _ hfresh

theorem evoStep_inv {toks : List String} {st : PState} {i : Nat}
    (hinv : ParseInv toks.length st) : ParseInv toks.length (evoStep toks st i) := by
  unfold evoStep
  by_cases hc : (cget st i || cget st (i+1)) = true
  · rw [if_pos hc]
    exact hinv
  rw [if_neg hc]
  rw [Bool.or_eq_true, not_or, Bool.not_eq_true, Bool.not_eq_true] at hc
  rcases hp : jsParseInt (tokAt toks i) with _ | nn <;> simp only [hp]
  · exact hinv
  · by_cases hcond : (nn = 2 ∨ nn = 3) ∧
        (tokAt toks (i+1) = "star" ∨ tokAt toks (i+1) = "stars")
    · rw [if_pos hcond]
      have hr1 : i+1 < toks.length :=
        tokAt_lt (by rcases hcond.2 with h | h <;> rw [h] <;> decide)
      apply ParseInv_push hinv
      intro t ht
      simp only [List.mem_cons, List.mem_singleton, List.not_mem_nil, or_false] at ht
      rcases ht with rfl | rfl
      · exact ⟨by omega, hc.1⟩
      · exact ⟨hr1, hc.2⟩
    · rw [if_neg hcond]
      exact hinv

theorem evoPass_inv {toks : List String} {st : PState}
    (hinv : ParseInv toks.length st) : ParseInv toks.length (evoPass toks st) := by
  unfold evoPass
  by_cases hcr : st.crashed = true
  · rw [if_pos hcr]
    exact hinv
  rw [if_neg hcr]
  exact foldl_range_inv (evoStep toks) (fun _ s => ParseInv toks.length s) (toks.length - 1)
    (fun i s hilt hp => evoStep_inv hp) st hinv

theorem textPass_inv {original : String} {n : Nat} {st : PState}
    (hinv : ParseInv n st) : ParseInv n (textPass original st) := by
  unfold textPass
  by_cases hcr : st.crashed = true
  · rw [if_pos hcr]
    exact hinv
  rw [if_neg hcr]
  have hempty : ∀ (st2 : PState), ParseInv n st2 → ∀ c,
      ParseInv n (pushCmd c [] st2) := by
    intro st2 h2 c
    exact ParseInv_push h2 c [] (by intro t ht; simp at ht)
  by_cases hup : levelUpMatch original = true
  · rw [if_pos hup]
    by_cases hdn : levelDownMatch original = true
    · rw [if_pos hdn]
      exact hempty _ (hempty _ hinv _) _
    · rw [if_neg hdn]
      exact hempty _ hinv _
  · rw [if_neg hup]
    by_cases hdn : levelDownMatch original = true
    · rw [if_pos hdn]
      exact hempty _ hinv _
    · rw [if_neg hdn]
      exact hinv

theorem clearPass_inv {toks : List String} {st : PState}
    (hinv : ParseInv toks.length st) : ParseInv toks.length (clearPass toks st) := by
  unfold clearPass
  by_cases hcr : st.crashed = true
  · rw [if_pos hcr]
    exact hinv
  rw [if_neg hcr]
  rcases hfind : (List.range toks.length).find?
      (fun i => !cget st i && ((tokAt toks i == "clear") || (tokAt toks i == "reset"))) with _ | i <;>
    simp only [hfind]
  · exact hinv
  · have hp := List.find?_some hfind
    have hmem := List.mem_of_find?_eq_some hfind
    rw [List.mem_range] at hmem
    simp only [Bool.and_eq_true, Bool.not_eq_true'] at hp
    apply ParseInv_push hinv
    intro t ht
    simp only [List.mem_singleton] at ht
    subst ht
    exact ⟨hmem, hp.1⟩

theorem orphanPass_inv {toks : List String} {st : PState}
    (hinv : ParseInv toks.length st) : ParseInv toks.length (orphanPass toks st) := by
  unfold orphanPass
  by_cases hcr : st.crashed = true
  · rw [if_pos hcr]
    exact hinv
  rw [if_neg hcr]
  by_cases hz : st.cmds = []
  · rw [if_pos hz]
    rcases orphanNum toks with _ | nn
    · exact hinv
    · exact ParseInv_push hinv _ [] (by intro t ht; simp at ht)
  · rw [if_neg hz]
    exact hinv

theorem runPasses_inv (original : String) (toks : List String) :
    ParseInv toks.length (runPasses original toks) := by
  have h0 : TogInv toks (initState toks) := by
    unfold TogInv ParseInv
    refine ⟨⟨by simp [initState], by simp [initState], ?_⟩, ?_⟩
    · intro c hc
      simp [initState] at hc
    · intro j hj
      rw [cget_init] at hj
      exact absurd hj (by decide)
  have h1 := togglePass_inv h0
  unfold TogInv at h1
  have h2 : WildInv toks 0 (togglePass toks (initState toks)) := by
    unfold WildInv
    refine ⟨h1.1, ?_⟩
    intro j hj
    unfold WOK
    exact Or.inl (h1.2 j hj)
  have h3 := wildPass_inv h2
  unfold WildInv at h3
  exact orphanPass_inv (clearPass_inv (textPass_inv (evoPass_inv
    (rarityPass_inv (numPass_inv h3.1)))))

/-- C1 counterexample: on the input level up 3 the keyword+number pass
emits a level 3 command from tokens 0 and 2 while the text based pass
emits a level-up command whose constituent tokens are 0 and 1, so the
token "level" contributes to two commands and the claim as stated
fails. -/
theorem token_contribution_counterexample : ¬ claimC1Holds "level up 3" := by
  unfold claimC1Holds
  decide

/-- C1 amended: the consumed token sets of the emitted commands are
pairwise disjoint for every input, so consumption based passes never
share a token; only the text based level up/down pass, which consumes
nothing, can emit a command whose constituent tokens overlap those of
another command. -/
theorem consumed_tokens_disjoint :
    ∀ text : String, (parseCommandI text).Pairwise
      (fun a b => ∀ t ∈ a.srcToks, t ∉ b.srcToks) := by
  intro text
  unfold parseCommandI parseFull
  have h := runPasses_inv (jsTrim (jsLowerStr text)) (jsSplitWs (jsTrim (jsLowerStr text)))
  unfold ParseInv at h
  exact h.2.1
